import Mathlib

/-!
# Verification of the dials pixel-connectivity and integration core

Shallow embedding of the repository's data model and algorithms.

The repository fragment contains `src/model/data/adjacency_list.h`
(the `dials::model::AdjacencyList` graph type used by the pixel-labelling
code) and `src/algorithms/background/boost_python/lui_2d_background.cc`
(the python registration of the 2D background subtraction).  The
algorithmic bodies (connected-component extraction, background
estimation, integration strategies, correction chain, batch
orchestration) are not part of the fragment; they are modelled from the
specification, as marked on each definition.
-/

set_option maxHeartbeats 1000000

namespace Dials

/-! ## Foreground masks and connectivity rules -/

/-- A bounded foreground-flag array: pixel `i` of the region is foreground
exactly when `mask.getD i false = true`; indices outside the region are
background. -/
def isFg (mask : List Bool) (i : Nat) : Bool :=
  mask.getD i false

/-- A foreground index is inside the region. -/
theorem isFg_lt {mask : List Bool} {i : Nat} (h : isFg mask i = true) :
    i < mask.length := by
  by_contra hlt
  rw [isFg, List.getD_eq_default] at h
  · exact Bool.false_ne_true h
  · omega

/-- The 4-connectivity rule on a `w`-column row-major grid: horizontal
neighbours in the same row, and vertical neighbours one row apart. -/
def adj4 (w : Nat) (u v : Nat) : Bool :=
  decide ((u / w = v / w ∧ (u + 1 = v ∨ v + 1 = u)) ∨ v = u + w ∨ u = v + w)

/-- The 4-connectivity rule is symmetric. -/
theorem adj4_symm (w u v : Nat) : adj4 w u v = adj4 w v u := by
  simp only [adj4, decide_eq_decide]
  constructor
  · rintro (⟨h1, h2 | h2⟩ | h | h)
    · exact Or.inl ⟨h1.symm, Or.inr h2⟩
    · exact Or.inl ⟨h1.symm, Or.inl h2⟩
    · exact Or.inr (Or.inr h)
    · exact Or.inr (Or.inl h)
  · rintro (⟨h1, h2 | h2⟩ | h | h)
    · exact Or.inl ⟨h1.symm, Or.inr h2⟩
    · exact Or.inl ⟨h1.symm, Or.inl h2⟩
    · exact Or.inr (Or.inr h)
    · exact Or.inr (Or.inl h)

/-- The edge relation of the pixel graph: two pixel indices are linked
when both are foreground and the connectivity rule relates them. -/
def fgStep (mask : List Bool) (adj : Nat → Nat → Bool) (u v : Nat) : Bool :=
  isFg mask u && isFg mask v && adj u v

theorem fgStep_fg_left {mask : List Bool} {adj : Nat → Nat → Bool} {u v : Nat}
    (h : fgStep mask adj u v = true) : isFg mask u = true := by
  simp only [fgStep, Bool.and_eq_true] at h
  exact h.1.1

theorem fgStep_fg_right {mask : List Bool} {adj : Nat → Nat → Bool} {u v : Nat}
    (h : fgStep mask adj u v = true) : isFg mask v = true := by
  simp only [fgStep, Bool.and_eq_true] at h
  exact h.1.2

/-- Symmetry of the connectivity rule inside the region transfers to the
pixel-graph edge relation. -/
theorem fgStep_symm {mask : List Bool} {adj : Nat → Nat → Bool}
    (hsym : ∀ u, u < mask.length → ∀ v, v < mask.length → adj u v = adj v u)
    {u v : Nat} (h : fgStep mask adj u v = true) : fgStep mask adj v u = true := by
  have hu := fgStep_fg_left h
  have hv := fgStep_fg_right h
  simp only [fgStep, Bool.and_eq_true] at h ⊢
  exact ⟨⟨hv, hu⟩, by rw [← hsym u (isFg_lt hu) v (isFg_lt hv)]; exact h.2⟩

/-- Connectivity of two pixels: a chain of foreground-to-foreground
adjacency steps. -/
def Reach (mask : List Bool) (adj : Nat → Nat → Bool) (p q : Nat) : Prop :=
  Relation.ReflTransGen (fun a b => fgStep mask adj a b = true) p q

theorem Reach.refl {mask : List Bool} {adj : Nat → Nat → Bool} (p : Nat) :
    Reach mask adj p p :=
  Relation.ReflTransGen.refl

theorem Reach.trans {mask : List Bool} {adj : Nat → Nat → Bool} {p q r : Nat}
    (h1 : Reach mask adj p q) (h2 : Reach mask adj q r) : Reach mask adj p r :=
  Relation.ReflTransGen.trans h1 h2

theorem Reach.symm {mask : List Bool} {adj : Nat → Nat → Bool}
    (hsym : ∀ u, u < mask.length → ∀ v, v < mask.length → adj u v = adj v u)
    {p q : Nat} (h : Reach mask adj p q) : Reach mask adj q p :=
  Relation.ReflTransGen.symmetric (fun _ _ hs => fgStep_symm hsym hs) h

/-- A pixel connected to a foreground pixel is foreground. -/
theorem Reach.fg {mask : List Bool} {adj : Nat → Nat → Bool} {p q : Nat}
    (hp : isFg mask p = true) (h : Reach mask adj p q) : isFg mask q = true := by
  induction h with
  | refl => exact hp
  | tail _ hstep _ => exact fgStep_fg_right hstep

/-! ## The adjacency-list graph type

Embedding of `src/model/data/adjacency_list.h`:
`typedef boost::adjacency_list<boost::listS, boost::vecS,
boost::undirectedS> AdjacencyList;`. -/

/-- `dials::model::AdjacencyList`.  Vertices are the indices
`0 .. numVertices - 1` (the `vecS` vertex container); edges are kept in a
sequence (`listS`) with no uniqueness check, so parallel edges are
representable; `undirectedS` means a stored pair `(u, v)` links `u` and
`v` in both directions. -/
structure AdjacencyList where
  numVertices : Nat
  edges : List (Nat × Nat)

/-- Adjacency query on the undirected graph: an edge stored in either
orientation links the two endpoints. -/
def AdjacencyList.adjacent (g : AdjacencyList) (u v : Nat) : Bool :=
  g.edges.any (fun e => (e.1 == u && e.2 == v) || (e.1 == v && e.2 == u))

/-- `boost::add_edge` on a `listS` edge container: the pair is appended to
the edge sequence unconditionally. -/
def AdjacencyList.addEdge (g : AdjacencyList) (u v : Nat) : AdjacencyList :=
  { g with edges := g.edges ++ [(u, v)] }

/-- Two vertices are in the same connected component when a chain of
adjacencies links them. -/
def AdjacencyList.Connected (g : AdjacencyList) (u v : Nat) : Prop :=
  Relation.ReflTransGen (fun a b => g.adjacent a b = true) u v

theorem AdjacencyList.adjacent_symm (g : AdjacencyList) (u v : Nat) :
    g.adjacent u v = g.adjacent v u := by
  have h : (fun e : Nat × Nat => (e.1 == u && e.2 == v) || (e.1 == v && e.2 == u))
      = (fun e : Nat × Nat => (e.1 == v && e.2 == u) || (e.1 == u && e.2 == v)) := by
    funext e
    exact Bool.or_comm _ _
  rw [adjacent, adjacent, h]

/-- Adjacency in the graph with one more edge: the old adjacencies plus
the new pair in either orientation. -/
theorem AdjacencyList.adjacent_addEdge (g : AdjacencyList) (u v a b : Nat) :
    (g.addEdge u v).adjacent a b =
      (g.adjacent a b || (u == a && v == b) || (u == b && v == a)) := by
  simp only [adjacent, addEdge, List.any_append, List.any_cons, List.any_nil]
  cases hg : g.edges.any (fun e => (e.1 == a && e.2 == b) || (e.1 == b && e.2 == a)) <;>
    simp [Bool.or_comm]

/-- The edge list of the pixel graph of a region: every ordered pair of
region indices linked by `fgStep`, enumerated in row-major order. -/
def fgEdges (mask : List Bool) (adj : Nat → Nat → Bool) : List (Nat × Nat) :=
  (List.range mask.length).flatMap (fun u =>
    ((List.range mask.length).filter (fun v => fgStep mask adj u v)).map
      (fun v => (u, v)))

theorem mem_fgEdges {mask : List Bool} {adj : Nat → Nat → Bool} {u v : Nat} :
    (u, v) ∈ fgEdges mask adj ↔ fgStep mask adj u v = true := by
  simp only [fgEdges, List.mem_flatMap, List.mem_map, List.mem_filter, List.mem_range]
  constructor
  · rintro ⟨a, _, b, ⟨_, hs⟩, heq⟩
    obtain ⟨rfl, rfl⟩ := Prod.mk.injEq .. ▸ heq
    exact hs
  · intro hs
    exact ⟨u, isFg_lt (fgStep_fg_left hs), v,
      ⟨isFg_lt (fgStep_fg_right hs), hs⟩, rfl⟩

/-- The graph the connectivity code builds over a region: one vertex per
pixel of the region, and the `fgStep` edges between foreground pixels. -/
def PixelGraph.build (mask : List Bool) (adj : Nat → Nat → Bool) : AdjacencyList :=
  { numVertices := mask.length
    edges := fgEdges mask adj }

theorem PixelGraph.mem_build_edges {mask : List Bool} {adj : Nat → Nat → Bool}
    {u v : Nat} :
    (u, v) ∈ (PixelGraph.build mask adj).edges ↔ fgStep mask adj u v = true :=
  mem_fgEdges

/-! ## Breadth-first extraction of connected components

Modelled from the spec: the extraction algorithm itself is not part of
the source fragment (only the `AdjacencyList` type it builds is), so the
breadth-first traversal is modelled from the contract of §4.1. -/

/-- One breadth-first expansion: add every pixel of the region linked by
an edge to the current set.  Iterating this from `{p}` visits the pixels
of `p`'s component level by level, as a breadth-first traversal does. -/
def expand (mask : List Bool) (adj : Nat → Nat → Bool) (s : Finset Nat) : Finset Nat :=
  s ∪ (Finset.range mask.length).filter (fun v => ∃ u ∈ s, fgStep mask adj u v = true)

/-- Modelled from the spec: the breadth-first component of pixel `p` —
iterate the expansion until it must have stabilised. -/
def bfsFrom (mask : List Bool) (adj : Nat → Nat → Bool) (p : Nat) : Finset Nat :=
  (expand mask adj)^[mask.length + 1] {p}

theorem subset_expand (mask : List Bool) (adj : Nat → Nat → Bool) (s : Finset Nat) :
    s ⊆ expand mask adj s :=
  Finset.subset_union_left

theorem iterate_expand_subset_succ (mask : List Bool) (adj : Nat → Nat → Bool)
    (p k : Nat) :
    (expand mask adj)^[k] {p} ⊆ (expand mask adj)^[k + 1] {p} := by
  rw [Function.iterate_succ_apply']
  exact subset_expand mask adj _

theorem iterate_expand_mono (mask : List Bool) (adj : Nat → Nat → Bool) (p : Nat)
    {k m : Nat} (h : k ≤ m) :
    (expand mask adj)^[k] {p} ⊆ (expand mask adj)^[m] {p} := by
  induction m with
  | zero =>
    have hk : k = 0 := by omega
    subst hk
    exact subset_rfl
  | succ m ih =>
    rcases Nat.lt_or_ge k (m + 1) with h1 | h2
    · exact (ih (by omega)).trans (iterate_expand_subset_succ mask adj p m)
    · have hk : k = m + 1 := by omega
      subst hk
      exact subset_rfl

theorem iterate_expand_subset_insert (mask : List Bool) (adj : Nat → Nat → Bool)
    (p : Nat) (k : Nat) :
    (expand mask adj)^[k] {p} ⊆ insert p (Finset.range mask.length) := by
  induction k with
  | zero => simp
  | succ k ih =>
    rw [Function.iterate_succ_apply']
    intro x hx
    rcases Finset.mem_union.mp hx with h | h
    · exact ih h
    · exact Finset.mem_insert_of_mem (Finset.mem_of_mem_filter x h)

theorem card_iterate_expand (mask : List Bool) (adj : Nat → Nat → Bool) (p : Nat)
    {k : Nat}
    (h : ∀ j < k, (expand mask adj)^[j] {p} ≠ (expand mask adj)^[j + 1] {p}) :
    k + 1 ≤ ((expand mask adj)^[k] {p}).card := by
  induction k with
  | zero => simp
  | succ k ih =>
    have h1 : k + 1 ≤ ((expand mask adj)^[k] {p}).card :=
      ih (fun j hj => h j (by omega))
    have h2 : (expand mask adj)^[k] {p} ⊂ (expand mask adj)^[k + 1] {p} :=
      HasSubset.Subset.ssubset_of_ne (iterate_expand_subset_succ mask adj p k)
        (h k (by omega))
    have h3 := Finset.card_lt_card h2
    omega

theorem exists_iterate_expand_fix (mask : List Bool) (adj : Nat → Nat → Bool)
    (p : Nat) :
    ∃ k ≤ mask.length,
      (expand mask adj)^[k] {p} = (expand mask adj)^[k + 1] {p} := by
  by_contra hc
  push_neg at hc
  have h1 := card_iterate_expand mask adj p (k := mask.length + 1)
    (fun j hj => hc j (by omega))
  have h2 : ((expand mask adj)^[mask.length + 1] {p}).card ≤ mask.length + 1 := by
    have hs := Finset.card_le_card
      (iterate_expand_subset_insert mask adj p (mask.length + 1))
    have hi := Finset.card_insert_le p (Finset.range mask.length)
    simp only [Finset.card_range] at hi
    omega
  omega

theorem iterate_eq_of_fix {α : Type} {f : α → α} {x : α} {k : Nat}
    (h : f^[k] x = f^[k + 1] x) : ∀ m, k ≤ m → f^[m] x = f^[k] x := by
  intro m hm
  induction m with
  | zero =>
    have hk : k = 0 := by omega
    subst hk
    rfl
  | succ m ih =>
    rcases Nat.lt_or_ge k (m + 1) with h1 | h2
    · rw [Function.iterate_succ_apply', ih (by omega),
        ← Function.iterate_succ_apply' f k x]
      exact h.symm
    · have hk : k = m + 1 := by omega
      subst hk
      rfl

/-- The breadth-first set is a fixpoint of the expansion. -/
theorem expand_bfsFrom (mask : List Bool) (adj : Nat → Nat → Bool) (p : Nat) :
    expand mask adj (bfsFrom mask adj p) = bfsFrom mask adj p := by
  obtain ⟨k, hk, hfix⟩ := exists_iterate_expand_fix mask adj p
  have h1 : bfsFrom mask adj p = (expand mask adj)^[k] {p} :=
    iterate_eq_of_fix hfix (mask.length + 1) (by omega)
  rw [h1, ← Function.iterate_succ_apply' (expand mask adj) k {p}]
  exact hfix.symm

theorem mem_bfsFrom_self (mask : List Bool) (adj : Nat → Nat → Bool) (p : Nat) :
    p ∈ bfsFrom mask adj p :=
  iterate_expand_mono mask adj p (Nat.zero_le _) (by simp)

theorem reach_of_mem_iterate (mask : List Bool) (adj : Nat → Nat → Bool) (p : Nat) :
    ∀ k q, q ∈ (expand mask adj)^[k] {p} → Reach mask adj p q := by
  intro k
  induction k with
  | zero =>
    intro q hq
    simp only [Function.iterate_zero_apply, Finset.mem_singleton] at hq
    rw [hq]
    exact Reach.refl p
  | succ k ih =>
    intro q hq
    rw [Function.iterate_succ_apply'] at hq
    rcases Finset.mem_union.mp hq with h | h
    · exact ih q h
    · obtain ⟨u, hu, hstep⟩ := (Finset.mem_filter.mp h).2
      exact Relation.ReflTransGen.tail (ih u hu) hstep

/-- Membership in the breadth-first set is exactly connectivity. -/
theorem mem_bfsFrom {mask : List Bool} {adj : Nat → Nat → Bool} {p q : Nat} :
    q ∈ bfsFrom mask adj p ↔ Reach mask adj p q := by
  constructor
  · exact reach_of_mem_iterate mask adj p _ q
  · intro h
    induction h with
    | refl => exact mem_bfsFrom_self mask adj p
    | tail h1 hstep ih =>
      rw [← expand_bfsFrom mask adj p]
      apply Finset.mem_union_right
      exact Finset.mem_filter.mpr
        ⟨Finset.mem_range.mpr (isFg_lt (fgStep_fg_right hstep)), _, ih, hstep⟩

theorem mem_bfsFrom_fg {mask : List Bool} {adj : Nat → Nat → Bool} {p q : Nat}
    (hp : isFg mask p = true) (hq : q ∈ bfsFrom mask adj p) : isFg mask q = true :=
  Reach.fg hp (mem_bfsFrom.mp hq)

/-! ## The extraction driver -/

/-- Modelled from the spec: the driver of `extract_components` scans the
pixel indices in row-major order and, at each unvisited foreground pixel,
emits that pixel's component (computed by `comp`) and marks it visited.
The component function is a parameter so that the breadth-first and the
union-find extraction share the driver. -/
def extractWith (mask : List Bool) (comp : Nat → Finset Nat) :
    List Nat → Finset Nat → List (Finset Nat)
  | [], _ => []
  | i :: rest, visited =>
    if isFg mask i = true ∧ i ∉ visited then
      comp i :: extractWith mask comp rest (visited ∪ comp i)
    else
      extractWith mask comp rest visited

/-- Modelled from the spec: `PixelGraph.extract_components` by
breadth-first traversal per unvisited foreground pixel. -/
def extract_components (mask : List Bool) (adj : Nat → Nat → Bool) :
    List (Finset Nat) :=
  extractWith mask (bfsFrom mask adj) (List.range mask.length) ∅

/-- Every emitted set is the component of some unvisited foreground
pixel of the scanned index list. -/
theorem extractWith_shape {mask : List Bool} {comp : Nat → Finset Nat} :
    ∀ l visited C, C ∈ extractWith mask comp l visited →
      ∃ i ∈ l, isFg mask i = true ∧ i ∉ visited ∧ C = comp i := by
  intro l
  induction l with
  | nil =>
    intro v C h
    simp [extractWith] at h
  | cons j rest ih =>
    intro v C h
    simp only [extractWith] at h
    split at h
    · rename_i hcond
      rcases List.mem_cons.mp h with rfl | h2
      · exact ⟨j, List.mem_cons_self j rest, hcond.1, hcond.2, rfl⟩
      · obtain ⟨i, hil, hfg, hvis, hC⟩ := ih _ C h2
        exact ⟨i, List.mem_cons_of_mem j hil, hfg,
          fun hv => hvis (Finset.mem_union_left _ hv), hC⟩
    · obtain ⟨i, hil, hfg, hvis, hC⟩ := ih _ C h
      exact ⟨i, List.mem_cons_of_mem j hil, hfg, hvis, hC⟩

/-- Every unvisited foreground pixel of the scanned list lands in some
emitted set, provided each pixel is in its own component. -/
theorem extractWith_covers {mask : List Bool} {comp : Nat → Finset Nat}
    (hself : ∀ i, isFg mask i = true → i ∈ comp i) :
    ∀ l visited i, i ∈ l → isFg mask i = true → i ∉ visited →
      ∃ C ∈ extractWith mask comp l visited, i ∈ C := by
  intro l
  induction l with
  | nil =>
    intro v i hi
    simp at hi
  | cons j rest ih =>
    intro v i hi hfg hvis
    simp only [extractWith]
    split
    · rename_i hcond
      by_cases hic : i ∈ comp j
      · exact ⟨comp j, List.mem_cons_self _ _, hic⟩
      · have hir : i ∈ rest := by
          rcases List.mem_cons.mp hi with rfl | h2
          · exact absurd (hself i hfg) hic
          · exact h2
        obtain ⟨C, hC, hiC⟩ := ih _ i hir hfg
          (fun hv => by
            rcases Finset.mem_union.mp hv with h | h
            · exact hvis h
            · exact hic h)
        exact ⟨C, List.mem_cons_of_mem _ hC, hiC⟩
    · rename_i hcond
      have hir : i ∈ rest := by
        rcases List.mem_cons.mp hi with rfl | h2
        · exact absurd ⟨hfg, hvis⟩ hcond
        · exact h2
      exact ih _ i hir hfg hvis

/-- The emitted sets are pairwise disjoint, provided overlapping
components coincide on their generators. -/
theorem extractWith_pairwise {mask : List Bool} {comp : Nat → Finset Nat}
    (hglue : ∀ i k x, isFg mask i = true → isFg mask k = true →
      x ∈ comp i → x ∈ comp k → k ∈ comp i) :
    ∀ l visited,
      (extractWith mask comp l visited).Pairwise (fun A B => ∀ x, x ∈ A → x ∉ B) := by
  intro l
  induction l with
  | nil =>
    intro v
    simp [extractWith]
  | cons j rest ih =>
    intro v
    simp only [extractWith]
    split
    · rename_i hcond
      refine List.Pairwise.cons ?_ (ih _)
      intro B hB x hxj hxB
      obtain ⟨k, _, hfgk, hkvis, rfl⟩ := extractWith_shape _ _ B hB
      exact hkvis (Finset.mem_union_right _ (hglue j k x hcond.1 hfgk hxj hxB))
    · exact ih v

/-- Every pixel of an emitted set is foreground, provided components of
foreground pixels contain only foreground pixels. -/
theorem extractWith_fg {mask : List Bool} {comp : Nat → Finset Nat}
    (hfg : ∀ i, isFg mask i = true → ∀ x ∈ comp i, isFg mask x = true) :
    ∀ l visited C, C ∈ extractWith mask comp l visited →
      ∀ x ∈ C, isFg mask x = true := by
  intro l v C hC x hx
  obtain ⟨i, _, hfgi, _, rfl⟩ := extractWith_shape _ _ C hC
  exact hfg i hfgi x hx

/-- The driver only looks at components of foreground pixels, so two
component functions agreeing there extract the same list. -/
theorem extractWith_congr {mask : List Bool} {c1 c2 : Nat → Finset Nat}
    (h : ∀ i, isFg mask i = true → c1 i = c2 i) :
    ∀ l visited, extractWith mask c1 l visited = extractWith mask c2 l visited := by
  intro l
  induction l with
  | nil =>
    intro v
    rfl
  | cons j rest ih =>
    intro v
    simp only [extractWith]
    split
    · rename_i hcond
      rw [h j hcond.1, ih]
    · exact ih v

/-! ## Union-find over grid indices

Modelled from the spec: §4.1 names union-find over grid indices as the
alternative component algorithm.  It is embedded in its quick-find form:
a total labelling of the indices, refined by one union per foreground
adjacency. -/

/-- One union of a quick-find labelling: everything labelled like the
second endpoint is relabelled to the label of the first. -/
def unionOp (l : Nat → Nat) (e : Nat × Nat) : Nat → Nat :=
  fun x => if l x = l e.2 then l e.1 else l x

/-- Modelled from the spec: the union-find labelling of the grid —
starting from the identity labelling, union the endpoints of every
foreground adjacency. -/
def ufLabel (mask : List Bool) (adj : Nat → Nat → Bool) : Nat → Nat :=
  (fgEdges mask adj).foldl unionOp id

/-- The union-find component of `p`: the foreground pixels of the region
sharing `p`'s label. -/
def ufComponentOf (mask : List Bool) (adj : Nat → Nat → Bool) (p : Nat) :
    Finset Nat :=
  (Finset.range mask.length).filter
    (fun q => isFg mask q = true ∧ ufLabel mask adj q = ufLabel mask adj p)

/-- Modelled from the spec: `extract_components` computed by union-find
over grid indices. -/
def extract_components_uf (mask : List Bool) (adj : Nat → Nat → Bool) :
    List (Finset Nat) :=
  extractWith mask (ufComponentOf mask adj) (List.range mask.length) ∅

/-- A union step never separates labels that already agree. -/
theorem foldl_unionOp_congr (E : List (Nat × Nat)) :
    ∀ (l : Nat → Nat) (x y : Nat), l x = l y →
      (E.foldl unionOp l) x = (E.foldl unionOp l) y := by
  induction E with
  | nil =>
    intro l x y h
    exact h
  | cons e E ih =>
    intro l x y h
    simp only [List.foldl_cons]
    apply ih
    simp only [unionOp]
    rw [h]

/-- After the fold, the endpoints of every processed pair share a label. -/
theorem foldl_unionOp_unites (E : List (Nat × Nat)) :
    ∀ (l : Nat → Nat), ∀ e ∈ E, (E.foldl unionOp l) e.1 = (E.foldl unionOp l) e.2 := by
  induction E with
  | nil =>
    intro l e he
    simp at he
  | cons e' E ih =>
    intro l e he
    rcases List.mem_cons.mp he with rfl | hmem
    · simp only [List.foldl_cons]
      apply foldl_unionOp_congr
      simp [unionOp]
    · simp only [List.foldl_cons]
      exact ih (unionOp l e') e hmem

/-- The fold only ever identifies labels of `R`-related indices, for any
symmetric and transitive relation `R` containing the processed pairs. -/
theorem foldl_unionOp_sound {R : Nat → Nat → Prop}
    (hRsymm : ∀ a b, R a b → R b a) (hRtrans : ∀ a b c, R a b → R b c → R a c) :
    ∀ (E : List (Nat × Nat)) (l : Nat → Nat),
      (∀ x y, l x = l y → R x y) → (∀ e ∈ E, R e.1 e.2) →
      ∀ x y, (E.foldl unionOp l) x = (E.foldl unionOp l) y → R x y := by
  intro E
  induction E with
  | nil =>
    intro l hl _ x y h
    exact hl x y h
  | cons e E ih =>
    intro l hl hE x y h
    simp only [List.foldl_cons] at h
    refine ih (unionOp l e) ?_ (fun e' he' => hE e' (List.mem_cons_of_mem _ he')) x y h
    intro a b hab
    have hRe : R e.1 e.2 := hE e (List.mem_cons_self _ _)
    simp only [unionOp] at hab
    by_cases ha : l a = l e.2 <;> by_cases hb : l b = l e.2 <;>
      simp only [ha, hb, if_pos, if_neg, if_true, if_false] at hab
    · exact hRtrans a e.2 b (hl a e.2 ha) (hRsymm b e.2 (hl b e.2 hb))
    · exact hRtrans a e.2 b (hl a e.2 ha)
        (hRtrans e.2 e.1 b (hRsymm e.1 e.2 hRe) (hl e.1 b hab))
    · exact hRtrans a e.1 b (hl a e.1 hab)
        (hRtrans e.1 e.2 b hRe (hRsymm b e.2 (hl b e.2 hb)))
    · exact hl a b hab

/-- Two indices share a union-find label exactly when they are connected
in the pixel graph. -/
theorem ufLabel_eq_iff_reach {mask : List Bool} {adj : Nat → Nat → Bool}
    (hsym : ∀ u, u < mask.length → ∀ v, v < mask.length → adj u v = adj v u)
    (x y : Nat) :
    ufLabel mask adj x = ufLabel mask adj y ↔ Reach mask adj x y := by
  constructor
  · intro h
    refine foldl_unionOp_sound (R := Reach mask adj)
      (fun a b hab => Reach.symm hsym hab)
      (fun a b c h1 h2 => Reach.trans h1 h2)
      (fgEdges mask adj) id ?_ ?_ x y h
    · intro a b hab
      rw [show a = b from hab]
      exact Reach.refl b
    · intro e he
      obtain ⟨u, v⟩ := e
      exact Relation.ReflTransGen.single (mem_fgEdges.mp he)
  · intro h
    induction h with
    | refl => rfl
    | tail h1 hstep ih =>
      exact ih.trans (foldl_unionOp_unites (fgEdges mask adj) id _ (mem_fgEdges.mpr hstep))

/-- For a foreground pixel, the union-find component and the
breadth-first component coincide. -/
theorem ufComponentOf_eq_bfsFrom {mask : List Bool} {adj : Nat → Nat → Bool}
    (hsym : ∀ u, u < mask.length → ∀ v, v < mask.length → adj u v = adj v u)
    (p : Nat) (hp : isFg mask p = true) :
    ufComponentOf mask adj p = bfsFrom mask adj p := by
  ext q
  simp only [ufComponentOf, Finset.mem_filter, Finset.mem_range, mem_bfsFrom]
  constructor
  · rintro ⟨_, _, hl⟩
    exact Reach.symm hsym ((ufLabel_eq_iff_reach hsym q p).mp hl)
  · intro hr
    have hfgq := Reach.fg hp hr
    exact ⟨isFg_lt hfgq, hfgq,
      (ufLabel_eq_iff_reach hsym q p).mpr (Reach.symm hsym hr)⟩

/-! ## The integration pipeline

The integration strategies, corrections and orchestration are exported
by `integration_ext.cc` (`export_summation`, `export_interface`,
`export_corrections`, ...) but their bodies are not part of the source
fragment; they are modelled from §§3-4 and §7 of the spec. -/

/-- The per-reflection failure reasons of §6/§7. -/
inductive Failure where
  | invalidRegion
  | insufficientBackground
  | nonConvergent
  | noReferenceProfile
  | degenerateGeometry
  | rejected
deriving DecidableEq, Repr

/-- A pixel of a shoebox: intensity value, propagated variance, the
foreground/background flag, and validity inside the detector area. -/
structure Pixel where
  value : ℚ
  variance : ℚ
  isForeground : Bool
  valid : Bool
deriving DecidableEq, Repr

/-- A bounded region of pixels belonging to one candidate reflection. -/
structure Shoebox where
  pixels : List Pixel
deriving DecidableEq, Repr

/-- The intensity/variance pair a strategy produces for a reflection. -/
structure IntensityEstimate where
  value : ℚ
  variance : ℚ
  success : Bool
deriving DecidableEq, Repr

/-- The foreground-masked pixels of a shoebox. -/
def Shoebox.foreground (sb : Shoebox) : List Pixel :=
  sb.pixels.filter (fun p => p.isForeground)

/-- The background-flagged pixels of a shoebox. -/
def Shoebox.background (sb : Shoebox) : List Pixel :=
  sb.pixels.filter (fun p => !p.isForeground)

/-- Modelled from the spec: the `Summation` integration strategy
(registered by `export_summation`) — sum of the corrected pixel values
over the foreground mask; variance is the sum of the per-pixel
variances.  Fails with `InvalidRegion` on an empty shoebox, succeeds
otherwise. -/
def Summation.integrate (sb : Shoebox) : Except Failure IntensityEstimate :=
  if sb.pixels.isEmpty then
    .error .invalidRegion
  else
    .ok { value := (sb.foreground.map Pixel.value).sum
          variance := (sb.foreground.map Pixel.variance).sum
          success := true }

/-- Modelled from the spec: `ProfileFittingReciprocalSpace` (registered
by `export_profile_fitting_reciprocal_space`) — least-squares scale of a
reference profile against the foreground pixels; fails with
`NoReferenceProfile` when no reference is available, and with
`DegenerateGeometry` when the profile carries no weight over the
foreground.  The variance is the scale-factor variance of the fit. -/
def ProfileFitting.integrate (profile : Option (List ℚ)) (sb : Shoebox) :
    Except Failure IntensityEstimate :=
  match profile with
  | none => .error .noReferenceProfile
  | some P =>
    if ((P.zip sb.foreground).map (fun x => x.1 * x.1)).sum = 0 then
      .error .degenerateGeometry
    else
      .ok { value := ((P.zip sb.foreground).map (fun x => x.1 * x.2.value)).sum
              / ((P.zip sb.foreground).map (fun x => x.1 * x.1)).sum
            variance := 1 / ((P.zip sb.foreground).map (fun x => x.1 * x.1)).sum
            success := true }

/-- The reflection geometry a correction factor reads (detector/beam
angles etc.), reduced to its numeric parameters. -/
structure ReflectionGeometry where
  params : List ℚ
deriving DecidableEq, Repr

/-- A named, ordered, stateless correction: a pure function from the
reflection geometry to a multiplicative factor, or `none` when the
factor cannot be computed for that (degenerate) geometry. -/
structure CorrectionFactor where
  compute : ReflectionGeometry → Option ℚ

/-- Applying one multiplicative correction factor: the value scales with
the factor and the variance with its square. -/
def applyFactor (f : ℚ) (est : IntensityEstimate) : IntensityEstimate :=
  { value := f * est.value, variance := f * f * est.variance
    success := est.success }

/-- The outcome of the correction chain: the estimate after the last
successfully applied correction, plus the failure, if any. -/
structure CorrectionResult where
  estimate : IntensityEstimate
  failure : Option Failure
deriving DecidableEq, Repr

/-- Modelled from the spec: `CorrectionChain.apply` (registered by
`export_corrections`) — apply the ordered list of correction factors;
abort at the first factor that cannot be computed, reporting the last
successfully corrected estimate together with `DegenerateGeometry`. -/
def CorrectionChain.apply :
    List CorrectionFactor → IntensityEstimate → ReflectionGeometry → CorrectionResult
  | [], est, _ => { estimate := est, failure := none }
  | c :: rest, est, g =>
    match c.compute g with
    | none => { estimate := est, failure := some .degenerateGeometry }
    | some f => CorrectionChain.apply rest (applyFactor f est) g

/-- Modelled from the spec: `Preprocessor.prepare` (registered by
`export_preprocessor`) — trim the pixels outside the valid detector
area and reject a shoebox without a usable pixel. -/
def Preprocessor.prepare (sb : Shoebox) : Except Failure Shoebox :=
  let kept := sb.pixels.filter (fun p => p.valid)
  if kept.isEmpty then .error .rejected else .ok { pixels := kept }

/-- Modelled from the spec: `BackgroundEstimator.estimate_and_subtract` —
fit a background level to the background-flagged pixels (the constant
term of the planar least-squares fit), subtract it from every pixel and
propagate Poisson-like variance plus the fit variance; fail with
`InsufficientBackground` when fewer than `minBg` background pixels are
available. -/
def BackgroundEstimator.estimateAndSubtract (minBg : Nat) (sb : Shoebox) :
    Except Failure (Shoebox × ℚ) :=
  if sb.background.length < minBg then
    .error .insufficientBackground
  else
    .ok ({ pixels := sb.pixels.map (fun p =>
            { p with
              value := p.value - (sb.background.map Pixel.value).sum / sb.background.length
              variance := max p.value 1 +
                (sb.background.map (fun q => max q.value 1)).sum /
                  (sb.background.length * sb.background.length) }) },
         (sb.background.map Pixel.value).sum / sb.background.length)

/-- The integration strategy selected for a run (§4.4). -/
inductive Strategy where
  | summation
  | profileFitting
deriving DecidableEq, Repr

/-- A predicted reflection: identifier, its shoebox, the geometry the
corrections read, and an optional reference profile. -/
structure Reflection where
  id : Nat
  shoebox : Shoebox
  geometry : ReflectionGeometry
  profile : Option (List ℚ)

/-- Dispatch to the selected integration strategy. -/
def integrateWith (s : Strategy) (r : Reflection) (sb : Shoebox) :
    Except Failure IntensityEstimate :=
  match s with
  | .summation => Summation.integrate sb
  | .profileFitting => ProfileFitting.integrate r.profile sb

/-- Modelled from the spec: the per-reflection pipeline of §4.6 —
prepare, estimate and subtract background, integrate, correct; every
failure is captured in the `Except` result. -/
def processOne (s : Strategy) (chain : List CorrectionFactor) (minBg : Nat)
    (r : Reflection) : Except Failure IntensityEstimate := do
  let sb ← Preprocessor.prepare r.shoebox
  let bgout ← BackgroundEstimator.estimateAndSubtract minBg sb
  let raw ← integrateWith s r bgout.1
  match CorrectionChain.apply chain raw r.geometry with
  | { estimate := est, failure := none } => .ok est
  | { estimate := _, failure := some f } => .error f

/-- Modelled from the spec: `IntegrationInterface` (registered by
`export_interface`) — process the whole batch, one reflection at a time,
attaching each reflection's result (estimate or failure reason) to its
identifier. -/
def IntegrationInterface.processBatch (s : Strategy)
    (chain : List CorrectionFactor) (minBg : Nat) (rs : List Reflection) :
    List (Nat × Except Failure IntensityEstimate) :=
  rs.map (fun r => (r.id, processOne s chain minBg r))

/-! ## The exported 2D background operation

Embedding of `src/algorithms/background/boost_python/lui_2d_background.cc`. -/

/-- One `boost::python::def` registration: exported name and the
declared argument names. -/
structure PyFunctionDef where
  name : String
  argNames : List String
deriving DecidableEq, Repr

/-- Embedding of `export_lui_2d_background`: the single registration
`def("background_subtract_2d", &background_subtract_2d, (arg("data2d")))`
(the `smooth_3d` registration is commented out in the source). -/
def export_lui_2d_background : List PyFunctionDef :=
  [{ name := "background_subtract_2d", argNames := ["data2d"] }]

/-! ## Shared auxiliary lemmas and concrete inputs -/

theorem list_sum_map_const {α : Type} (l : List α) (f : α → ℚ) (c : ℚ)
    (h : ∀ x ∈ l, f x = c) : (l.map f).sum = c * l.length := by
  induction l with
  | nil => simp
  | cons a l ih =>
    simp only [List.map_cons, List.sum_cons, List.length_cons]
    rw [h a (List.mem_cons_self a l), ih (fun x hx => h x (List.mem_cons_of_mem a hx))]
    push_cast
    ring

/-- A concrete 3×3 region: foreground pixels 0, 1 (one horizontal pair),
4 and 8 (two isolated pixels). -/
def maskW : List Bool :=
  [true, true, false, false, true, false, false, false, true]

/-- A concrete shoebox: two foreground pixels of value 10 and one valid
background pixel. -/
def sbW : Shoebox :=
  { pixels := [⟨10, 10, true, true⟩, ⟨10, 10, true, true⟩, ⟨2, 2, false, true⟩] }

/-! ## The claims -/

/-- C1: for every bounded foreground-flag array and (symmetric)
connectivity rule, the component list returned by `extract_components`
partitions the foreground pixel set: a pixel index occurs in some
returned set exactly when it is foreground (so no background pixel
occurs in any set), and the returned sets are pairwise disjoint, so
every foreground pixel occurs in exactly one of them. -/
theorem C1_extract_components_partition (mask : List Bool) (adj : Nat → Nat → Bool)
    (hsym : ∀ u, u < mask.length → ∀ v, v < mask.length → adj u v = adj v u) :
    (∀ i, isFg mask i = true ↔ ∃ C ∈ extract_components mask adj, i ∈ C) ∧
    (extract_components mask adj).Pairwise (fun A B => ∀ x, x ∈ A → x ∉ B) := by
  constructor
  · intro i
    constructor
    · intro hfg
      exact extractWith_covers (fun j _ => mem_bfsFrom_self mask adj j)
        (List.range mask.length) ∅ i (List.mem_range.mpr (isFg_lt hfg)) hfg
        (Finset.not_mem_empty i)
    · rintro ⟨C, hC, hiC⟩
      exact extractWith_fg (fun j hj x hx => mem_bfsFrom_fg hj hx) _ _ C hC i hiC
  · apply extractWith_pairwise
    intro i k x _ _ hxi hxk
    exact mem_bfsFrom.mpr
      (Reach.trans (mem_bfsFrom.mp hxi) (Reach.symm hsym (mem_bfsFrom.mp hxk)))

theorem C1_extract_components_partition_witness :
    isFg maskW 0 = true ↔ ∃ C ∈ extract_components maskW (adj4 3), 0 ∈ C :=
  (C1_extract_components_partition maskW (adj4 3) (by decide)).1 0

/-- C2: for every foreground-flag array and (symmetric) connectivity
rule, the union-find extraction and the per-unvisited-pixel
breadth-first extraction return the same component list — the same
partition of the foreground pixels and the same component count — and
two foreground pixels share a union-find label exactly when the
traversal puts one in the component of the other. -/
theorem C2_unionfind_eq_traversal (mask : List Bool) (adj : Nat → Nat → Bool)
    (hsym : ∀ u, u < mask.length → ∀ v, v < mask.length → adj u v = adj v u) :
    extract_components_uf mask adj = extract_components mask adj ∧
    (extract_components_uf mask adj).length = (extract_components mask adj).length ∧
    ∀ p q, isFg mask p = true → isFg mask q = true →
      (ufLabel mask adj p = ufLabel mask adj q ↔ q ∈ bfsFrom mask adj p) := by
  have h1 : extract_components_uf mask adj = extract_components mask adj :=
    extractWith_congr (fun i hi => ufComponentOf_eq_bfsFrom hsym i hi) _ _
  refine ⟨h1, by rw [h1], ?_⟩
  intro p q _ _
  rw [mem_bfsFrom]
  exact ufLabel_eq_iff_reach hsym p q

theorem C2_unionfind_eq_traversal_witness :
    extract_components_uf maskW (adj4 3) = extract_components maskW (adj4 3) :=
  (C2_unionfind_eq_traversal maskW (adj4 3) (by decide)).1

/-- C8: the adjacency graph built over a region is undirected — for
every pair of vertices, `u` is adjacent to `v` exactly when `v` is
adjacent to `u` — its nodes are the pixel indices of the region, and its
stored edges are exactly the connectivity relations between foreground
pixels. -/
theorem C8_built_graph_undirected (mask : List Bool) (adj : Nat → Nat → Bool) :
    (∀ u v, (PixelGraph.build mask adj).adjacent u v
        = (PixelGraph.build mask adj).adjacent v u) ∧
    (PixelGraph.build mask adj).numVertices = mask.length ∧
    ∀ u v, (u, v) ∈ (PixelGraph.build mask adj).edges ↔ fgStep mask adj u v = true :=
  ⟨fun u v => (PixelGraph.build mask adj).adjacent_symm u v, rfl,
   fun _ _ => PixelGraph.mem_build_edges⟩

/-- C9: on the `listS` edge container, inserting an edge always appends
— a duplicate of an existing edge becomes a parallel edge rather than
being rejected — and inserting a duplicate of an existing edge leaves
the connected-component membership of every vertex unchanged. -/
theorem C9_parallel_edge_idempotent (g : AdjacencyList) (u v : Nat) :
    (g.addEdge u v).edges.length = g.edges.length + 1 ∧
    (g.adjacent u v = true →
      ∀ a b, (AdjacencyList.Connected (g.addEdge u v) a b ↔ g.Connected a b)) := by
  refine ⟨by simp [AdjacencyList.addEdge], ?_⟩
  intro hadj a b
  constructor
  · intro h
    induction h with
    | refl => exact Relation.ReflTransGen.refl
    | tail h1 hstep ih =>
      refine Relation.ReflTransGen.tail ih ?_
      rw [AdjacencyList.adjacent_addEdge] at hstep
      simp only [Bool.or_eq_true, Bool.and_eq_true, beq_iff_eq] at hstep
      rcases hstep with (hstep | ⟨rfl, rfl⟩) | ⟨rfl, rfl⟩
      · exact hstep
      · exact hadj
      · rw [g.adjacent_symm]
        exact hadj
  · intro h
    induction h with
    | refl => exact Relation.ReflTransGen.refl
    | tail h1 hstep ih =>
      refine Relation.ReflTransGen.tail ih ?_
      rw [AdjacencyList.adjacent_addEdge, hstep]
      rfl

theorem C9_parallel_edge_idempotent_witness :
    ((AdjacencyList.mk 4 [(0, 1)]).addEdge 0 1).edges.length = 2 ∧
    (AdjacencyList.Connected ((AdjacencyList.mk 4 [(0, 1)]).addEdge 0 1) 0 1 ↔
      AdjacencyList.Connected (AdjacencyList.mk 4 [(0, 1)]) 0 1) :=
  ⟨(C9_parallel_edge_idempotent ⟨4, [(0, 1)]⟩ 0 1).1,
   (C9_parallel_edge_idempotent ⟨4, [(0, 1)]⟩ 0 1).2 (by decide) 0 1⟩

/-- C10: the export list of the 2D background module registers exactly
one operation, `background_subtract_2d`, with the single argument
`data2d` — no mask, minimum-background-count or model-selection
parameter appears at this interface, so each call's result is a function
of the pixel data alone. -/
theorem C10_export_single_data2d_arg :
    export_lui_2d_background
      = [{ name := "background_subtract_2d", argNames := ["data2d"] }] ∧
    export_lui_2d_background.map PyFunctionDef.argNames = [["data2d"]] ∧
    export_lui_2d_background.map (fun d => d.argNames.length) = [1] :=
  ⟨rfl, rfl, rfl⟩

/-- C3: on every non-empty shoebox, Summation.integrate succeeds with
value the sum of the corrected pixel values over the foreground mask and
variance the sum of the per-pixel variances; when every foreground pixel
carries the value `c` (e.g. 10), the value is `c` times the foreground
pixel count. -/
theorem C3_summation_value (sb : Shoebox) (h : sb.pixels ≠ []) :
    Summation.integrate sb
      = .ok { value := (sb.foreground.map Pixel.value).sum
              variance := (sb.foreground.map Pixel.variance).sum
              success := true } ∧
    ∀ c : ℚ, (∀ p ∈ sb.foreground, p.value = c) →
      ∃ est, Summation.integrate sb = .ok est ∧
        est.value = c * sb.foreground.length := by
  have hne : sb.pixels.isEmpty = false := by
    cases hp : sb.pixels with
    | nil => exact absurd hp h
    | cons a l => rfl
  have hok : Summation.integrate sb
      = .ok { value := (sb.foreground.map Pixel.value).sum
              variance := (sb.foreground.map Pixel.variance).sum
              success := true } := by
    simp [Summation.integrate, hne]
  refine ⟨hok, fun c hc => ⟨_, hok, ?_⟩⟩
  exact list_sum_map_const sb.foreground Pixel.value c hc

theorem C3_summation_value_witness :
    ∃ est, Summation.integrate sbW = .ok est ∧
      est.value = 10 * sbW.foreground.length :=
  (C3_summation_value sbW (by decide)).2 10 (by decide)

/-- C4: estimates produced by the integration strategies and by the
correction chain carry a nonnegative variance (for Summation, given the
nonnegative per-pixel variances the background stage guarantees), while
the value is permitted to be negative. -/
theorem C4_variance_nonneg :
    (∀ sb est, (∀ p ∈ sb.pixels, 0 ≤ p.variance) →
      Summation.integrate sb = .ok est → 0 ≤ est.variance) ∧
    (∀ profile sb est,
      ProfileFitting.integrate profile sb = .ok est → 0 ≤ est.variance) ∧
    (∀ chain est g, 0 ≤ est.variance →
      0 ≤ (CorrectionChain.apply chain est g).estimate.variance) ∧
    (∃ est g, est.value < 0 ∧ 0 ≤ est.variance ∧
      (CorrectionChain.apply [] est g).estimate.value < 0 ∧
      0 ≤ (CorrectionChain.apply [] est g).estimate.variance) := by
  refine ⟨?_, ?_, ?_, ?_⟩
  · intro sb est hvar hok
    rw [Summation.integrate] at hok
    split at hok
    · exact absurd hok (by simp)
    · injection hok with hok
      subst hok
      refine List.sum_nonneg ?_
      intro x hx
      obtain ⟨p, hp, rfl⟩ := List.mem_map.mp hx
      exact hvar p (List.mem_of_mem_filter hp)
  · intro profile sb est hok
    cases profile with
    | none => exact absurd hok (by simp [ProfileFitting.integrate])
    | some P =>
      rw [ProfileFitting.integrate] at hok
      split at hok
      · exact absurd hok (by simp)
      · injection hok with hok
        subst hok
        refine one_div_nonneg.mpr (List.sum_nonneg ?_)
        intro x hx
        obtain ⟨q, _, rfl⟩ := List.mem_map.mp hx
        exact mul_self_nonneg q.1
  · intro chain
    induction chain with
    | nil =>
      intro est g h
      exact h
    | cons c rest ih =>
      intro est g h
      rw [CorrectionChain.apply]
      cases hc : c.compute g with
      | none => exact h
      | some f =>
        exact ih (applyFactor f est) g
          (mul_nonneg (mul_self_nonneg f) h)
  · exact ⟨⟨-1, 1, true⟩, ⟨[]⟩, by norm_num, by norm_num, by decide, by decide⟩

theorem C4_variance_nonneg_witness :
    (0 : ℚ) ≤ (IntensityEstimate.mk 20 20 true).variance :=
  C4_variance_nonneg.1 sbW ⟨20, 20, true⟩ (by norm_num [sbW])
    (by norm_num [Summation.integrate, sbW, Shoebox.foreground])

/-- C5: the batch is processed to completion — one result per
reflection; each reflection's result is a function of that reflection
alone, so no per-reflection failure alters any other reflection's
result; and every reflection's processing yields either an estimate or
one of the per-reflection failure reasons. -/
theorem C5_batch_isolation (s : Strategy) (chain : List CorrectionFactor)
    (minBg : Nat) (rs : List Reflection) :
    (IntegrationInterface.processBatch s chain minBg rs).length = rs.length ∧
    (∀ (i : Nat) (r : Reflection), rs[i]? = some r →
      (IntegrationInterface.processBatch s chain minBg rs)[i]?
        = some (r.id, processOne s chain minBg r)) ∧
    (∀ r, (∃ est, processOne s chain minBg r = .ok est) ∨
      (∃ f, processOne s chain minBg r = .error f)) := by
  refine ⟨by simp [IntegrationInterface.processBatch], ?_, ?_⟩
  · intro i r hr
    rw [IntegrationInterface.processBatch, List.getElem?_map, hr]
    rfl
  · intro r
    cases h : processOne s chain minBg r with
    | ok est => exact Or.inl ⟨est, rfl⟩
    | error f => exact Or.inr ⟨f, rfl⟩

/-- A reflection whose shoebox integrates cleanly. -/
def reflOk : Reflection := ⟨0, sbW, ⟨[]⟩, none⟩

/-- A reflection whose shoebox has no background pixel. -/
def reflBad : Reflection := ⟨1, { pixels := [⟨10, 10, true, true⟩] }, ⟨[]⟩, none⟩

theorem C5_batch_isolation_witness :
    (IntegrationInterface.processBatch .summation [] 1 [reflOk, reflBad])[1]?
      = some (1, Except.error .insufficientBackground) := by
  have h := (C5_batch_isolation .summation [] 1 [reflOk, reflBad]).2.1 1 reflBad rfl
  rw [h]
  rfl

/-- C6: when every correction before `c` is computable for the geometry
and `c` is not, the chain fails with DegenerateGeometry, applies no
correction after `c` (the result does not depend on the rest of the
chain), and reports the estimate after the last successfully applied
correction — never a substituted default. -/
theorem C6_chain_abort (pre : List CorrectionFactor) (c : CorrectionFactor)
    (post : List CorrectionFactor) (est : IntensityEstimate)
    (g : ReflectionGeometry)
    (hpre : ∀ f ∈ pre, (f.compute g).isSome = true) (hc : c.compute g = none) :
    CorrectionChain.apply (pre ++ c :: post) est g
      = { estimate := (CorrectionChain.apply pre est g).estimate
          failure := some .degenerateGeometry } ∧
    (CorrectionChain.apply pre est g).failure = none := by
  revert hpre
  induction pre generalizing est with
  | nil =>
    intro _
    simp [CorrectionChain.apply, hc]
  | cons c0 pre ih =>
    intro hpre
    have h0 : (c0.compute g).isSome = true := hpre c0 (List.mem_cons_self _ _)
    obtain ⟨f0, hf0⟩ := Option.isSome_iff_exists.mp h0
    simp only [List.cons_append, CorrectionChain.apply, hf0]
    exact ih (applyFactor f0 est) (fun f hf => hpre f (List.mem_cons_of_mem _ hf))

/-- A correction factor that doubles the intensity. -/
def cfDouble : CorrectionFactor := ⟨fun _ => some 2⟩

/-- A correction factor that cannot be computed for any geometry. -/
def cfBad : CorrectionFactor := ⟨fun _ => none⟩

theorem C6_chain_abort_witness :
    CorrectionChain.apply [cfDouble, cfBad, cfDouble] ⟨3, 4, true⟩ ⟨[]⟩
      = { estimate := ⟨6, 16, true⟩, failure := some .degenerateGeometry } := by
  have h := (C6_chain_abort [cfDouble] cfBad [cfDouble] ⟨3, 4, true⟩ ⟨[]⟩
    (by intro f hf; simp only [List.mem_singleton] at hf; subst hf; rfl) rfl).1
  simp only [List.singleton_append] at h
  rw [h]
  norm_num [CorrectionChain.apply, cfDouble, applyFactor]

/-- C7: a shoebox with fewer background-flagged pixels than the required
minimum — in particular any shoebox with zero background pixels when a
positive minimum is required — makes estimate_and_subtract fail with the
explicit InsufficientBackground error rather than crash, skip, or return
a silent zero-variance success. -/
theorem C7_insufficient_background (minBg : Nat) (sb : Shoebox)
    (h : sb.background.length < minBg) :
    BackgroundEstimator.estimateAndSubtract minBg sb
      = .error .insufficientBackground := by
  simp [BackgroundEstimator.estimateAndSubtract, h]

theorem C7_insufficient_background_witness :
    BackgroundEstimator.estimateAndSubtract 1
        { pixels := [⟨10, 10, true, true⟩] }
      = .error .insufficientBackground :=
  C7_insufficient_background 1 { pixels := [⟨10, 10, true, true⟩] } (by decide)

end Dials
